import Mathlib

/-!
Verification of the nomad scripted control-surface runtime.

Shallow embedding of the Go sources:
- `pkg/scripting/runner.go` (background coroutine driver loop, restart
  policy, non-blocking passive path),
- `pkg/scripting/manager.go` (boot scan, passive batching),
- `pkg/streamdeck/navigation.go` (page rendering),
- `pkg/streamdeck/device.go` (HID image-write pager),
- `pkg/scripting/modules/json.go` (Lua - Go JSON value conversion),
- `pkg/scripting/images.go` (image cache eviction),
- `apps/nomad-interface-streamdeck/main.go` (key-update callback).

Pure functions are translated directly; the concurrent loops are modelled
as step functions over explicit state, driven by traces of outcomes.
-/

namespace Nomad

/-! ## Background scheduler (runner.go)

`RestartPolicy`, the outcome of one `L.Resume` of the background coroutine,
and the mutable state of one `ScriptRunner` that the loop reads and writes.
-/

/-- Restart policy for background workers, from runner.go. -/
inductive RestartPolicy where
  | always
  | never
  | once
deriving DecidableEq, Repr

/-- Outcome of one resume of the background coroutine, abstracting the
triple `(finished, sleepMs, err)` returned by `runBackgroundCoroutine`. -/
inductive ResumeOutcome where
  | errored (msg : String)
  | finished
  | yielded (sleepMs : Int)
deriving DecidableEq, Repr

/-- The fields of `ScriptRunner` that `backgroundLoop` reads and writes:
the restart counter, the policy, and whether `bgThread` is non-nil. -/
structure BgState where
  bgRestarts : Nat
  restartPolicy : RestartPolicy
  hasThread : Bool
deriving DecidableEq, Repr

/-- What the loop does after handling one resume outcome: either exit
(`return` in Go), or wait `delayMs` milliseconds (also interruptible by
`bgCtx.Done()`) and go around again. -/
inductive BgAction where
  | terminate
  | waitThenContinue (delayMs : Int)
deriving DecidableEq, Repr

/-- `runBackgroundCoroutine` creates a fresh coroutine when `bgThread` is
nil, then resumes it; the resume outcome itself is supplied by the trace. -/
def ensureThread (s : BgState) : BgState :=
  if s.hasThread then s else { s with hasThread := true }

/-- One iteration of `backgroundLoop` (runner.go) after the resume returned
outcome `o`: the error branch bumps `bgRestarts`, clears the coroutine and
applies the restart policy (1 s delay before retrying); the finished branch
clears the coroutine and pauses 100 ms; the yielded branch waits `sleepMs`
when positive and 10 ms otherwise. -/
def backgroundLoopStep (s : BgState) (o : ResumeOutcome) : BgState × BgAction :=
  match o with
  | .errored _ =>
    let restarts := s.bgRestarts + 1
    let s' : BgState := { s with bgRestarts := restarts, hasThread := false }
    match s.restartPolicy with
    | .never => (s', .terminate)
    | .once =>
      if restarts > 1 then (s', .terminate) else (s', .waitThenContinue 1000)
    | .always => (s', .waitThenContinue 1000)
  | .finished => ({ s with hasThread := false }, .waitThenContinue 100)
  | .yielded sleepMs =>
    (s, .waitThenContinue (if sleepMs > 0 then sleepMs else 10))

/-- The loop driven by a trace of resume outcomes. Each iteration first
ensures a coroutine exists (`runBackgroundCoroutine`), then handles the
outcome; a `terminate` action exits the loop, so later outcomes are never
processed. Produces the per-iteration `(state after, action)` log. -/
def backgroundLoopTrace (s : BgState) : List ResumeOutcome → List (BgState × BgAction)
  | [] => []
  | o :: rest =>
    let p := backgroundLoopStep (ensureThread s) o
    p :: (if p.2 = BgAction.terminate then [] else backgroundLoopTrace p.1 rest)

/-- An outcome is an error. -/
def ResumeOutcome.isError : ResumeOutcome → Bool
  | .errored _ => true
  | _ => false

theorem backgroundLoopStep_restarts_of_not_error (s : BgState) (o : ResumeOutcome)
    (h : o.isError = false) :
    (backgroundLoopStep (ensureThread s) o).1.bgRestarts = s.bgRestarts ∧
    (backgroundLoopStep (ensureThread s) o).1.restartPolicy = s.restartPolicy ∧
    (backgroundLoopStep (ensureThread s) o).2 ≠ BgAction.terminate := by
  cases o with
  | errored m => simp [ResumeOutcome.isError] at h
  | finished => simp [backgroundLoopStep, ensureThread]; split <;> simp
  | yielded m => simp [backgroundLoopStep, ensureThread]; split <;> simp

theorem backgroundLoopTrace_no_error (pre rest : List ResumeOutcome)
    (h : ∀ o ∈ pre, o.isError = false) (s : BgState) :
    ∃ s' : BgState,
      backgroundLoopTrace s (pre ++ rest) =
        backgroundLoopTrace s pre ++ backgroundLoopTrace s' rest ∧
      (backgroundLoopTrace s pre).length = pre.length ∧
      s'.bgRestarts = s.bgRestarts ∧ s'.restartPolicy = s.restartPolicy := by
  induction pre generalizing s with
  | nil => exact ⟨s, by simp [backgroundLoopTrace]⟩
  | cons o pre ih =>
    have ho : o.isError = false := h o (by simp)
    obtain ⟨h1, h2, h3⟩ := backgroundLoopStep_restarts_of_not_error s o ho
    obtain ⟨s', hs1, hs2, hs3, hs4⟩ := ih (fun x hx => h x (by simp [hx]))
      (backgroundLoopStep (ensureThread s) o).1
    refine ⟨s', ?_, ?_, by omega, by rw [hs4, h2]⟩
    · simp only [List.cons_append, backgroundLoopTrace, List.append_eq]
      rw [if_neg h3, if_neg h3, hs1]
    · simp only [backgroundLoopTrace]
      rw [if_neg h3]
      simp [hs2]

theorem backgroundLoopTrace_cons (s : BgState) (o : ResumeOutcome) (rest : List ResumeOutcome) :
    backgroundLoopTrace s (o :: rest) =
      (backgroundLoopStep (ensureThread s) o) ::
        (if (backgroundLoopStep (ensureThread s) o).2 = BgAction.terminate then []
         else backgroundLoopTrace (backgroundLoopStep (ensureThread s) o).1 rest) := rfl

theorem backgroundLoopStep_errored (s : BgState) (m : String) :
    backgroundLoopStep (ensureThread s) (.errored m) =
      ({ s with bgRestarts := s.bgRestarts + 1, hasThread := false },
        match s.restartPolicy with
        | .never => BgAction.terminate
        | .once =>
          if s.bgRestarts + 1 > 1 then BgAction.terminate else .waitThenContinue 1000
        | .always => .waitThenContinue 1000) := by
  cases s with
  | mk r p t =>
    cases t <;> cases p <;> simp [backgroundLoopStep, ensureThread] <;> split <;> rfl

/-- Claim C3: under restart policy `once`, after the first background error
the loop performs exactly one restart (the coroutine is cleared, so a fresh
one is created, after a 1 second delay) and after a second error the loop
terminates permanently: no outcome after the second error is ever
processed. -/
theorem oncePolicy_one_restart_then_terminate
    (pre mid post : List ResumeOutcome) (e1 e2 : String)
    (hpre : ∀ o ∈ pre, o.isError = false) (hmid : ∀ o ∈ mid, o.isError = false) :
    (backgroundLoopTrace ⟨0, .once, false⟩
        (pre ++ .errored e1 :: (mid ++ .errored e2 :: post))).length =
      pre.length + mid.length + 2 ∧
    (∃ st1 : BgState,
      (backgroundLoopTrace ⟨0, .once, false⟩
          (pre ++ .errored e1 :: (mid ++ .errored e2 :: post)))[pre.length]? =
        some (st1, .waitThenContinue 1000) ∧
      st1.bgRestarts = 1 ∧ st1.hasThread = false) ∧
    (∃ st2 : BgState,
      (backgroundLoopTrace ⟨0, .once, false⟩
          (pre ++ .errored e1 :: (mid ++ .errored e2 :: post)))[pre.length + 1 + mid.length]? =
        some (st2, .terminate) ∧
      st2.bgRestarts = 2) := by
  obtain ⟨s1, he1, hl1, hr1, hp1⟩ :=
    backgroundLoopTrace_no_error pre (.errored e1 :: (mid ++ .errored e2 :: post))
      hpre ⟨0, .once, false⟩
  rw [backgroundLoopTrace_cons, backgroundLoopStep_errored] at he1
  rw [hr1] at he1
  simp only [hp1, Nat.zero_add, show ¬ (1 > 1) by omega, if_false, if_neg] at he1
  rw [if_neg (by simp)] at he1
  obtain ⟨s2, he2, hl2, hr2, hp2⟩ :=
    backgroundLoopTrace_no_error mid (.errored e2 :: post) hmid ⟨1, .once, false⟩
  rw [he2] at he1
  rw [backgroundLoopTrace_cons, backgroundLoopStep_errored] at he1
  rw [hr2] at he1
  simp only [hp2] at he1
  rw [if_pos (by omega), if_pos rfl] at he1
  refine ⟨?_, ?_, ?_⟩
  · rw [he1]
    simp [hl1, hl2]
    omega
  · refine ⟨⟨1, .once, false⟩, ?_, rfl, rfl⟩
    rw [he1, List.getElem?_append_right (by omega), hl1]
    simp
  · refine ⟨{ s2 with bgRestarts := s2.bgRestarts + 1, hasThread := false }, ?_, by rw [hr2]⟩
    rw [he1, List.getElem?_append_right (by omega), hl1]
    have : pre.length + 1 + mid.length - pre.length = mid.length + 1 := by omega
    rw [this, List.getElem?_cons_succ, List.getElem?_append_right (by omega), hl2]
    simp
    exact ⟨hr2, hp2.symm⟩

/-- Claim C3 witness: a concrete run with policy `once` and two errors. -/
theorem oncePolicy_one_restart_then_terminate_witness :
    (backgroundLoopTrace ⟨0, .once, false⟩
        ([.yielded 50] ++ .errored "boom" :: ([.finished] ++ .errored "again" :: [.yielded 7]))).length =
      1 + 1 + 2 ∧
    (∃ st1 : BgState,
      (backgroundLoopTrace ⟨0, .once, false⟩
          ([.yielded 50] ++ .errored "boom" :: ([.finished] ++ .errored "again" :: [.yielded 7])))[1]? =
        some (st1, .waitThenContinue 1000) ∧
      st1.bgRestarts = 1 ∧ st1.hasThread = false) ∧
    (∃ st2 : BgState,
      (backgroundLoopTrace ⟨0, .once, false⟩
          ([.yielded 50] ++ .errored "boom" :: ([.finished] ++ .errored "again" :: [.yielded 7])))[1 + 1 + 1]? =
        some (st2, .terminate) ∧
      st2.bgRestarts = 2) :=
  oncePolicy_one_restart_then_terminate [.yielded 50] [.finished] [.yielded 7] "boom" "again"
    (by decide) (by decide)

/-- Claim C2 counterexample: when the background coroutine yields
`sleepMs = 5` (which is ≥ 0) the driver waits 5 ms, not
`max(sleepMs, 10 ms) = 10 ms` as the claim states. -/
theorem backgroundYield_wait_counterexample :
    (backgroundLoopStep ⟨0, .always, true⟩ (.yielded 5)).2 = BgAction.waitThenContinue 5 ∧
    (backgroundLoopStep ⟨0, .always, true⟩ (.yielded 5)).2 ≠
      BgAction.waitThenContinue (max 5 10) := by
  constructor
  · rfl
  · intro h
    simp [backgroundLoopStep] at h

/-- Claim C2 (amended): whenever the background coroutine yields a value
`sleepMs ≥ 0`, the driver loop waits (or until cancellation) before
re-resuming; the wait is `sleepMs` ms when `sleepMs > 0` and 10 ms when
`sleepMs = 0`, which agrees with the claimed `max(sleepMs, 10 ms)` exactly
when `sleepMs = 0` or `sleepMs ≥ 10` (for `0 < sleepMs < 10` the loop
waits only `sleepMs` ms). -/
theorem backgroundYield_wait (s : BgState) (rest : List ResumeOutcome) (m : Int)
    (hm : 0 ≤ m) :
    ∃ w : Int,
      backgroundLoopTrace s (.yielded m :: rest) =
        (ensureThread s, .waitThenContinue w) :: backgroundLoopTrace (ensureThread s) rest ∧
      (0 < m → w = m) ∧ (m = 0 → w = 10) ∧
      ((m = 0 ∨ 10 ≤ m) → w = max m 10) := by
  refine ⟨if m > 0 then m else 10, ?_, ?_, ?_, ?_⟩
  · rw [backgroundLoopTrace_cons]
    simp [backgroundLoopStep]
  · intro h
    rw [if_pos h]
  · intro h
    subst h
    rfl
  · rintro (h | h)
    · subst h
      rfl
    · rw [if_pos (by omega)]
      omega

/-- Claim C2 witness: the amended statement at `sleepMs = 0`. -/
theorem backgroundYield_wait_witness :
    ∃ w : Int,
      backgroundLoopTrace ⟨0, .always, true⟩ [.yielded 0] =
        (ensureThread ⟨0, .always, true⟩, .waitThenContinue w) ::
          backgroundLoopTrace (ensureThread ⟨0, .always, true⟩) [] ∧
      (0 < (0 : Int) → w = 0) ∧ ((0 : Int) = 0 → w = 10) ∧
      (((0 : Int) = 0 ∨ 10 ≤ (0 : Int)) → w = max 0 10) :=
  backgroundYield_wait ⟨0, .always, true⟩ [] 0 (by decide)

/-! ## Passive path (runner.go `RunPassive`, manager.go `runPassiveUpdate`)

`RunPassive` first tries the per-script mutex without blocking
(`r.mu.TryLock()`); `lockFree` abstracts whether that try succeeds (it
fails exactly when another holder, in particular the background driver,
currently holds `r.mu`). The protected Lua call and its returned table are
abstracted by `PassiveEval`. -/

/-- A `KeyAppearance` (runner.go): RGB colour, overlay text, text colour
and the (resolved) image source. The Go zero values are black, the empty
string, black and the empty string. -/
structure KeyAppearance where
  color : Int × Int × Int
  text : String
  textColor : Int × Int × Int
  image : String
deriving DecidableEq, Repr

/-- The fields of the table returned by the Lua `passive` call, as
`RunPassive` inspects them: each field is present iff it exists with the
type the code checks for (`color`/`text_color` tables of three numbers,
`text` and `image` strings). -/
structure AppearanceTable where
  color : Option (Int × Int × Int)
  text : Option String
  textColor : Option (Int × Int × Int)
  image : Option String
deriving DecidableEq, Repr

/-- Result of the protected call `passive(keyIndex, state)`. -/
inductive PassiveEval where
  | err (msg : String)
  | nilRet
  | nonTable
  | table (t : AppearanceTable)
deriving DecidableEq, Repr

/-- Whether the first list is an initial segment of the second. -/
def startsWithChars : List Char → List Char → Bool
  | [], _ => true
  | _ :: _, [] => false
  | c :: cs, d :: ds => c = d && startsWithChars cs ds

/-- `strings.HasPrefix(s, p)` over the characters. -/
def strStartsWith (s p : String) : Bool :=
  startsWithChars p.data s.data

/-- `strings.HasPrefix(p, "http://") || strings.HasPrefix(p, "https://")`. -/
def isURL (s : String) : Bool :=
  strStartsWith s "http://" || strStartsWith s "https://"

/-- `filepath.IsAbs` on Unix: the path starts with a slash. -/
def isAbsPath (s : String) : Bool :=
  strStartsWith s "/"

/-- `filepath.Dir` on the character list of a Unix path: everything before
the final slash (the root stays `/`, a slashless path gives `.`). -/
def dirOfChars (cs : List Char) : List Char :=
  match cs.reverse.dropWhile (fun c => c ≠ '/') with
  | [] => ['.']
  | _ :: rest => if rest = [] then ['/'] else rest.reverse

/-- `filepath.Dir` as a `String` function. -/
def dirOf (s : String) : String :=
  String.mk (dirOfChars s.data)

/-- `filepath.Join(dir, p)` for a non-empty relative `p` (the runner only
joins a relative image path onto the script's directory; the cleaning Join
performs is the identity on the already-clean paths involved here). -/
def joinPath (dir p : String) : String :=
  dir ++ "/" ++ p

/-- The appearance `RunPassive` builds from the returned table: missing
colour stays the zero value, missing text stays empty, missing text colour
defaults to white, and the image source is kept as-is when it is a URL or
absolute, otherwise resolved against the script's directory. -/
def parseAppearance (scriptPath : String) (t : AppearanceTable) : KeyAppearance :=
  { color := t.color.getD (0, 0, 0)
    text := t.text.getD ""
    textColor := t.textColor.getD (255, 255, 255)
    image :=
      match t.image with
      | none => ""
      | some p =>
        if isURL p then p
        else if ¬ isAbsPath p then joinPath (dirOf scriptPath) p
        else p }

/-- One script runner as the passive path sees it. -/
structure RunnerModel where
  scriptPath : String
  hasPassive : Bool
  lockFree : Bool
  eval : PassiveEval
deriving DecidableEq, Repr

/-- `RunPassive` (runner.go): the `TryLock` failure and the
`hasPassive`/nil/non-table cases all return `(nil, nil)`; a protected-call
error returns `(nil, err)`; a table return is parsed into an appearance. -/
def runPassive (r : RunnerModel) (_keyIndex : Nat) : Option KeyAppearance × Option String :=
  if ¬ r.lockFree then (none, none)
  else if ¬ r.hasPassive then (none, none)
  else match r.eval with
    | .err m => (none, some m)
    | .nilRet => (none, none)
    | .nonTable => (none, none)
    | .table t => (some (parseAppearance r.scriptPath t), none)

/-- `runPassiveUpdate` (manager.go) for one tick: call `RunPassive` on
every visible script and batch exactly the non-nil appearances, keyed by
script path. -/
def runPassiveUpdate (visible : List (RunnerModel × Nat)) : List (String × KeyAppearance) :=
  visible.foldr
    (fun rk acc =>
      match (runPassive rk.1 rk.2).1 with
      | some a => (rk.1.scriptPath, a) :: acc
      | none => acc)
    []

theorem runPassiveUpdate_cons (rk : RunnerModel × Nat) (rest : List (RunnerModel × Nat)) :
    runPassiveUpdate (rk :: rest) =
      match (runPassive rk.1 rk.2).1 with
      | some a => (rk.1.scriptPath, a) :: runPassiveUpdate rest
      | none => runPassiveUpdate rest := rfl

theorem runPassive_some (r : RunnerModel) (k : Nat) (a : KeyAppearance)
    (h : (runPassive r k).1 = some a) :
    r.lockFree = true ∧ r.hasPassive = true := by
  by_cases hl : r.lockFree = true
  · by_cases hp : r.hasPassive = true
    · exact ⟨hl, hp⟩
    · simp [runPassive, hl, hp] at h
  · simp [runPassive, hl] at h

theorem runPassiveUpdate_mem (visible : List (RunnerModel × Nat)) (p : String)
    (a : KeyAppearance) (h : (p, a) ∈ runPassiveUpdate visible) :
    ∃ r k, (r, k) ∈ visible ∧ r.scriptPath = p ∧ r.lockFree = true ∧ r.hasPassive = true := by
  induction visible with
  | nil => simp [runPassiveUpdate] at h
  | cons rk rest ih =>
    rw [runPassiveUpdate_cons] at h
    rcases hres : (runPassive rk.1 rk.2).1 with _ | a0
    · rw [hres] at h
      obtain ⟨r, k, hmem, hrest⟩ := ih h
      exact ⟨r, k, List.mem_cons_of_mem _ hmem, hrest⟩
    · rw [hres] at h
      rcases List.mem_cons.mp h with h | h
      · obtain ⟨hl, hp⟩ := runPassive_some rk.1 rk.2 a0 hres
        refine ⟨rk.1, rk.2, List.mem_cons_self _ _, ?_, hl, hp⟩
        exact (congrArg Prod.fst h).symm
      · obtain ⟨r, k, hmem, hrest⟩ := ih h
        exact ⟨r, k, List.mem_cons_of_mem _ hmem, hrest⟩

/-- Claim C1: on every tick, `RunPassive` tries the per-script mutex
without blocking; if the background execution holds it, the call returns
no appearance and no error, nothing for that script is batched this tick
(paths are unique in the visible set), and a later tick on which the lock
is free does invoke passive. -/
theorem passive_tryLock_skip (visible : List (RunnerModel × Nat)) (r : RunnerModel) (k : Nat)
    (hmem : (r, k) ∈ visible) (hheld : r.lockFree = false)
    (huniq : (visible.map (fun x => x.1.scriptPath)).Nodup) :
    runPassive r k = (none, none) ∧
    (∀ a : KeyAppearance, (r.scriptPath, a) ∉ runPassiveUpdate visible) ∧
    (∀ t : AppearanceTable, r.hasPassive = true →
      (runPassive { r with lockFree := true, eval := .table t } k).1 =
        some (parseAppearance r.scriptPath t)) := by
  refine ⟨by simp [runPassive, hheld], ?_, ?_⟩
  · intro a ha
    obtain ⟨r', k', hmem', hpath', hfree', _⟩ := runPassiveUpdate_mem visible _ a ha
    have hne : r' ≠ r := by
      intro hEq
      rw [hEq] at hfree'
      rw [hfree'] at hheld
      exact Bool.true_eq_false.mp hheld
    have : Set.InjOn (fun x : RunnerModel × Nat => x.1.scriptPath) {x | x ∈ visible} :=
      List.inj_on_of_nodup_map huniq
    have hxy : (r', k') = (r, k) := by
      have := this (Set.mem_setOf.mpr hmem') (Set.mem_setOf.mpr hmem) (by simpa using hpath')
      exact this
    exact hne (congrArg Prod.fst hxy)
  · intro t hp
    simp [runPassive, hp]

/-- Claim C1 witness: a two-script visible set in which the first script's
mutex is held by background. -/
theorem passive_tryLock_skip_witness :
    runPassive ⟨"/cfg/a.lua", true, false, .table ⟨none, some "hi", none, none⟩⟩ 1 =
      (none, none) ∧
    (∀ a : KeyAppearance,
      ("/cfg/a.lua", a) ∉ runPassiveUpdate
        [(⟨"/cfg/a.lua", true, false, .table ⟨none, some "hi", none, none⟩⟩, 1),
         (⟨"/cfg/b.lua", true, true, .nilRet⟩, 2)]) ∧
    (∀ t : AppearanceTable,
      (⟨"/cfg/a.lua", true, false, .table ⟨none, some "hi", none, none⟩⟩ : RunnerModel).hasPassive = true →
      (runPassive { (⟨"/cfg/a.lua", true, false, .table ⟨none, some "hi", none, none⟩⟩ : RunnerModel) with
          lockFree := true, eval := .table t } 1).1 =
        some (parseAppearance "/cfg/a.lua" t)) :=
  passive_tryLock_skip
    [(⟨"/cfg/a.lua", true, false, .table ⟨none, some "hi", none, none⟩⟩, 1),
     (⟨"/cfg/b.lua", true, true, .nilRet⟩, 2)]
    ⟨"/cfg/a.lua", true, false, .table ⟨none, some "hi", none, none⟩⟩ 1
    (by simp) rfl (by simp)

/-! ## Page rendering (navigation.go `RenderPage`)

`RenderPage` builds one image per key of the 5x3 deck (back key 0, toggle
keys 5 and 10, content keys from `calculateKeyLayout`, items from the
current page) and then writes every key serially; unassigned keys get the
explicit black image and no `Clear()` pass is issued. The imperative
`images` array is embedded as a function update over key indices. -/

/-- An RGB colour as used by the navigator's text images. -/
structure RGB where
  r : Nat
  g : Nat
  b : Nat
deriving DecidableEq, Repr

/-- The image placed on a key: a `createTextImage(text, bg)` rendering
(text drawn in white) or the explicit all-black image. -/
inductive KeyWrite where
  | textImage (text : String) (bg : RGB)
  | black
deriving DecidableEq, Repr

/-- An operation sent to the device. `RenderPage` only ever emits
`writeKey`; `clearAll` models `Device.Clear()`, which it never calls. -/
inductive DeviceOp where
  | writeKey (key : Nat) (img : KeyWrite)
  | clearAll
deriving DecidableEq, Repr

/-- The key index an operation targets (`clearAll` targets none; the
out-of-range 15 keeps the projection total). -/
def opKeyIdx : DeviceOp → Nat
  | .writeKey k _ => k
  | .clearAll => 15

/-- An item of the current page (navigation.go `PageItem`). -/
structure PageItem where
  name : String
  isFolder : Bool
deriving DecidableEq, Repr

/-- `truncateName` (navigation.go): names longer than `maxLen` are cut to
`maxLen - 1` characters plus a dot. -/
def truncateName (name : String) (maxLen : Nat) : String :=
  if name.length ≤ maxLen then name else name.take (maxLen - 1) ++ "."

/-- `calculateKeyLayout`: the content keys are all `row*cols + col` with
`col ≠ 0`, in row-major order (column 0 is the reserved column). -/
def calcContentKeys (cols rows : Nat) : List Nat :=
  (List.range rows).flatMap fun row =>
    (List.range cols).filterMap fun col =>
      if col = 0 then none else some (row * cols + col)

/-- The content keys of the 5x3 deck the reserved constants are written
for. -/
def contentKeys15 : List Nat :=
  calcContentKeys 5 3

theorem contentKeys15_eq :
    contentKeys15 = [1, 2, 3, 4, 6, 7, 8, 9, 11, 12, 13, 14] := by
  decide

/-- The back key's image: grey `<-` below root, dark-grey `HOME` at root. -/
def backImage (atRoot : Bool) : KeyWrite :=
  if atRoot then .textImage "HOME" ⟨50, 50, 50⟩ else .textImage "<-" ⟨100, 100, 100⟩

/-- A toggle key's image: green `Tn:ON` when the toggle state is set, grey
`Tn` otherwise. -/
def toggleImage (label : String) (isOn : Bool) : KeyWrite :=
  if isOn then .textImage (label ++ ":ON") ⟨0, 150, 0⟩ else .textImage label ⟨80, 80, 80⟩

/-- A content item's image: blue text for folders, green for scripts. -/
def itemImage (it : PageItem) : KeyWrite :=
  if it.isFolder then .textImage (truncateName it.name 8) ⟨30, 80, 180⟩
  else .textImage (truncateName it.name 8) ⟨30, 130, 80⟩

/-- One assignment `images[k] = v` on the images array. -/
def setImg (f : Nat → Option KeyWrite) (k : Nat) (v : KeyWrite) : Nat → Option KeyWrite :=
  fun j => if j = k then some v else f j

/-- The content-key loop of `RenderPage`: `images[contentKeys[i]] = item i`
for each page item, stopping when the content keys run out. -/
def assignContent (f : Nat → Option KeyWrite) : List (PageItem × Nat) → (Nat → Option KeyWrite)
  | [] => f
  | (it, k) :: rest => assignContent (setImg f k (itemImage it)) rest

/-- The images array after `RenderPage` has assigned the reserved column
and the content keys (`nil` entries are the keys left unassigned). -/
def renderImages (atRoot t1 t2 : Bool) (items : List PageItem) : Nat → Option KeyWrite :=
  assignContent
    (setImg (setImg (setImg (fun _ => none) 0 (backImage atRoot)) 5 (toggleImage "T1" t1))
      10 (toggleImage "T2" t2))
    (items.zip contentKeys15)

/-- The serial write pass of `RenderPage`: one `WriteKeyData` per key index
in ascending order, a `nil` image becoming the explicit black image. -/
def renderPageOps (atRoot t1 t2 : Bool) (items : List PageItem) : List DeviceOp :=
  (List.range 15).map fun i =>
    .writeKey i ((renderImages atRoot t1 t2 items i).getD .black)

theorem assignContent_not_mem (pairs : List (PageItem × Nat)) (f : Nat → Option KeyWrite)
    (k : Nat) (h : ∀ p : PageItem, (p, k) ∉ pairs) :
    assignContent f pairs k = f k := by
  induction pairs generalizing f with
  | nil => rfl
  | cons hd rest ih =>
    obtain ⟨it, k0⟩ := hd
    have hk0 : k ≠ k0 := by
      intro hEq
      exact h it (by simp [hEq])
    rw [assignContent, ih _ fun p hp => h p (by simp [hp])]
    simp [setImg, hk0]

theorem assignContent_getElem (pairs : List (PageItem × Nat)) (f : Nat → Option KeyWrite)
    (i : Nat) (it : PageItem) (k : Nat)
    (hnd : (pairs.map Prod.snd).Nodup) (hget : pairs[i]? = some (it, k)) :
    assignContent f pairs k = some (itemImage it) := by
  induction pairs generalizing f i with
  | nil => simp at hget
  | cons hd rest ih =>
    obtain ⟨it0, k0⟩ := hd
    rcases i with _ | i
    · simp only [List.getElem?_cons_zero, Option.some_inj] at hget
      have h1 : it0 = it := congrArg Prod.fst hget
      have h2 : k0 = k := congrArg Prod.snd hget
      subst h1
      subst h2
      simp only [List.map_cons, List.nodup_cons] at hnd
      have hnotin : ∀ p : PageItem, (p, k0) ∉ rest := by
        intro p hp
        exact hnd.1 (List.mem_map_of_mem Prod.snd hp)
      rw [assignContent, assignContent_not_mem rest _ k0 hnotin]
      simp [setImg]
    · rw [List.getElem?_cons_succ] at hget
      simp only [List.map_cons, List.nodup_cons] at hnd
      rw [assignContent]
      exact ih _ i hnd.2 hget

theorem zip_map_snd (items : List PageItem) (ks : List Nat) :
    (items.zip ks).map Prod.snd = ks.take items.length := by
  induction items generalizing ks with
  | nil => simp
  | cons hd rest ih =>
    cases ks with
    | nil => simp
    | cons k ks => simp [ih]

theorem zip_getElem? (items : List PageItem) (ks : List Nat) (i : Nat) (it : PageItem)
    (k : Nat) (h1 : items[i]? = some it) (h2 : ks[i]? = some k) :
    (items.zip ks)[i]? = some (it, k) := by
  induction items generalizing ks i with
  | nil => simp at h1
  | cons hd rest ih =>
    cases ks with
    | nil => simp at h2
    | cons k0 ks =>
      rcases i with _ | i
      · simp at h1 h2
        simp [List.zip_cons_cons, h1, h2]
      · rw [List.zip_cons_cons]
        simp only [List.getElem?_cons_succ] at h1 h2 ⊢
        exact ih ks i h1 h2

/-- Claim C4: `RenderPage` issues exactly one image write per key index of
the 15-key deck, in ascending order and with no `Clear()`: key 0 gets the
Back image, keys 5 and 10 the toggle images, content key `i` the image of
page item `i`, and every content key beyond the items gets explicit
black. -/
theorem renderPage_one_write_per_key (atRoot t1 t2 : Bool) (items : List PageItem) :
    (renderPageOps atRoot t1 t2 items).map opKeyIdx = List.range 15 ∧
    DeviceOp.clearAll ∉ renderPageOps atRoot t1 t2 items ∧
    (renderPageOps atRoot t1 t2 items)[0]? = some (.writeKey 0 (backImage atRoot)) ∧
    (renderPageOps atRoot t1 t2 items)[5]? = some (.writeKey 5 (toggleImage "T1" t1)) ∧
    (renderPageOps atRoot t1 t2 items)[10]? = some (.writeKey 10 (toggleImage "T2" t2)) ∧
    (∀ (i k : Nat) (it : PageItem), contentKeys15[i]? = some k → items[i]? = some it →
      (renderPageOps atRoot t1 t2 items)[k]? = some (DeviceOp.writeKey k (itemImage it))) ∧
    (∀ i k : Nat, contentKeys15[i]? = some k → items.length ≤ i →
      (renderPageOps atRoot t1 t2 items)[k]? = some (DeviceOp.writeKey k KeyWrite.black)) := by
  have hknotres : ∀ k ∈ contentKeys15, k ≠ 0 ∧ k ≠ 5 ∧ k ≠ 10 ∧ k < 15 := by decide
  have hndck : contentKeys15.Nodup := by decide
  have hmemres : ∀ j : Nat, j = 0 ∨ j = 5 ∨ j = 10 → ∀ p : PageItem,
      (p, j) ∉ items.zip contentKeys15 := by
    intro j hj p hp
    have hmem : j ∈ contentKeys15 := (List.of_mem_zip hp).2
    rcases hj with rfl | rfl | rfl <;> simp [contentKeys15_eq] at hmem
  have hres : ∀ j : Nat, j = 0 ∨ j = 5 ∨ j = 10 →
      renderImages atRoot t1 t2 items j =
        (setImg (setImg (setImg (fun _ => none) 0 (backImage atRoot)) 5 (toggleImage "T1" t1))
          10 (toggleImage "T2" t2)) j := by
    intro j hj
    exact assignContent_not_mem _ _ j (hmemres j hj)
  refine ⟨?_, ?_, ?_, ?_, ?_, ?_, ?_⟩
  · rw [renderPageOps, List.map_map]
    exact List.map_id' _
  · intro h
    rw [renderPageOps] at h
    obtain ⟨i, _, hEq⟩ := List.mem_map.mp h
    exact DeviceOp.noConfusion hEq
  · rw [renderPageOps, List.getElem?_map, List.getElem?_range (by omega), Option.map_some']
    rw [hres 0 (by simp)]
    simp [setImg]
  · rw [renderPageOps, List.getElem?_map, List.getElem?_range (by omega), Option.map_some']
    rw [hres 5 (by simp)]
    simp [setImg]
  · rw [renderPageOps, List.getElem?_map, List.getElem?_range (by omega), Option.map_some']
    rw [hres 10 (by simp)]
    simp [setImg]
  · intro i k it hk hit
    have hkmem : k ∈ contentKeys15 := by
      obtain ⟨hlt, hke⟩ := List.getElem?_eq_some.mp hk
      exact hke ▸ List.getElem_mem hlt
    obtain ⟨_, _, _, hklt⟩ := hknotres k hkmem
    rw [renderPageOps, List.getElem?_map, List.getElem?_range hklt, Option.map_some']
    have hzip : (items.zip contentKeys15)[i]? = some (it, k) := zip_getElem? _ _ i it k hit hk
    have hnd : ((items.zip contentKeys15).map Prod.snd).Nodup := by
      rw [zip_map_snd]
      exact hndck.sublist (List.take_sublist _ _)
    rw [renderImages, assignContent_getElem _ _ i it k hnd hzip]
    rfl
  · intro i k hk hlen
    have hkmem : k ∈ contentKeys15 := by
      obtain ⟨hlt, hke⟩ := List.getElem?_eq_some.mp hk
      exact hke ▸ List.getElem_mem hlt
    obtain ⟨hk0, hk5, hk10, hklt⟩ := hknotres k hkmem
    rw [renderPageOps, List.getElem?_map, List.getElem?_range hklt, Option.map_some']
    have hnotin : ∀ p : PageItem, (p, k) ∉ items.zip contentKeys15 := by
      intro p hp
      have hmemtake : k ∈ (items.zip contentKeys15).map Prod.snd :=
        List.mem_map_of_mem Prod.snd hp
      rw [zip_map_snd] at hmemtake
      obtain ⟨j, hjlt, hje⟩ := List.mem_iff_getElem.mp hmemtake
      have hjtake : j < items.length ∧ j < contentKeys15.length := by
        rw [List.length_take] at hjlt
        omega
      have hje2 : contentKeys15[j]? = some k := by
        rw [List.getElem?_eq_getElem hjtake.2]
        refine congrArg some ?_
        rw [← hje]
        exact (List.getElem_take _).symm
      obtain ⟨hilt, hie⟩ := List.getElem?_eq_some.mp hk
      obtain ⟨hjlt2, hje2e⟩ := List.getElem?_eq_some.mp hje2
      have hij : i = j :=
        (@List.Nodup.getElem_inj_iff ℕ contentKeys15 hndck i hilt j hjlt2).mp
          (by rw [hie, hje2e])
      omega
    rw [renderImages, assignContent_not_mem _ _ k hnotin]
    simp [setImg, hk0, hk5, hk10]

/-- Claim C4 witness: a concrete page (below root, toggle 2 on, one folder
and one script item). -/
theorem renderPage_one_write_per_key_witness :
    (renderPageOps false false true [⟨"apps", true⟩, ⟨"clock", false⟩]).map opKeyIdx =
      List.range 15 ∧
    (renderPageOps false false true [⟨"apps", true⟩, ⟨"clock", false⟩])[1]? =
      some (DeviceOp.writeKey 1 (itemImage ⟨"apps", true⟩)) ∧
    (renderPageOps false false true [⟨"apps", true⟩, ⟨"clock", false⟩])[2]? =
      some (DeviceOp.writeKey 2 (itemImage ⟨"clock", false⟩)) ∧
    (renderPageOps false false true [⟨"apps", true⟩, ⟨"clock", false⟩])[3]? =
      some (DeviceOp.writeKey 3 KeyWrite.black) :=
  ⟨(renderPage_one_write_per_key false false true [⟨"apps", true⟩, ⟨"clock", false⟩]).1,
   (renderPage_one_write_per_key false false true
      [⟨"apps", true⟩, ⟨"clock", false⟩]).2.2.2.2.2.1 0 1 ⟨"apps", true⟩ (by decide) rfl,
   (renderPage_one_write_per_key false false true
      [⟨"apps", true⟩, ⟨"clock", false⟩]).2.2.2.2.2.1 1 2 ⟨"clock", false⟩ (by decide) rfl,
   (renderPage_one_write_per_key false false true
      [⟨"apps", true⟩, ⟨"clock", false⟩]).2.2.2.2.2.2 2 3 (by decide) (by decide)⟩

/-! ## HID image-write pager (device.go `writeImageData`)

The encoded image bytes are split into fixed 1024-byte reports: an 8-byte
header followed by up to 1016 payload bytes, the report zero-padded to
1024. Bytes are modelled as `Nat` values < 256; Go's `byte(x)` cast is
`x % 256`. -/

/-- The fixed page size of the MK.2/V2 image report. -/
def pageSize : Nat := 1024

/-- The header size of the image report. -/
def headerSize : Nat := 8

/-- Payload capacity per report: `pageSize - headerSize`. -/
def payloadSize : Nat := pageSize - headerSize

/-- `totalPages` of `writeImageData`: `(len + payloadSize - 1) / payloadSize`. -/
def totalPages (n : Nat) : Nat :=
  (n + payloadSize - 1) / payloadSize

/-- The payload chunk of page `page`: `imageData[start:end]` with
`start = page * payloadSize` and `end` clamped to the data length. -/
def pageChunk (imageData : List Nat) (page : Nat) : List Nat :=
  (imageData.drop (page * payloadSize)).take payloadSize

/-- One 1024-byte image report (device.go): header
`{0x02, 0x07, byte(keyIndex), lastPageFlag, payloadLen LE16, pageNum LE16}`
then the chunk, zero-padded to `pageSize`. -/
def buildReport (keyIndex : Nat) (imageData : List Nat) (page : Nat) : List Nat :=
  let chunk := pageChunk imageData page
  [0x02, 0x07, keyIndex % 256,
   if page = totalPages imageData.length - 1 then 0x01 else 0x00,
   chunk.length % 256, (chunk.length / 256) % 256,
   page % 256, (page / 256) % 256] ++
    chunk ++ List.replicate (payloadSize - chunk.length) 0

/-- `writeImageData`: the reports written for one key, in ascending page
order (the Go loop runs `page = 0, 1, ..., totalPages-1` under the device
mutex held by `SetImage`/`SetImageRaw`). -/
def writeImageData (keyIndex : Nat) (imageData : List Nat) : List (List Nat) :=
  (List.range (totalPages imageData.length)).map (buildReport keyIndex imageData)

theorem pageChunk_length (imageData : List Nat) (page : Nat) :
    (pageChunk imageData page).length =
      min payloadSize (imageData.length - page * payloadSize) := by
  simp [pageChunk]

theorem chunks_join (imageData : List Nat) :
    ((List.range (totalPages imageData.length)).map (pageChunk imageData)).flatten =
      imageData := by
  generalize hn : imageData.length = n
  induction n using Nat.strong_induction_on generalizing imageData with
  | _ n ih =>
    rcases Nat.eq_zero_or_pos n with hz | hpos
    · subst hz
      have : imageData = [] := List.eq_nil_of_length_eq_zero hn
      subst this
      simp [totalPages, payloadSize, pageSize, headerSize]
    · by_cases hsmall : n ≤ payloadSize
      · have htp : totalPages n = 1 := by
          simp only [totalPages, payloadSize, pageSize, headerSize] at *
          omega
        have hr1 : List.range 1 = [0] := by decide
        rw [htp, hr1, List.map_singleton, List.flatten_cons, List.flatten_nil,
          List.append_nil]
        show (imageData.drop (0 * payloadSize)).take payloadSize = imageData
        rw [Nat.zero_mul, List.drop_zero]
        exact List.take_of_length_le (by omega)
      · have htp : totalPages n = totalPages (n - payloadSize) + 1 := by
          have h1 : n + payloadSize - 1 = (n - payloadSize + payloadSize - 1) + payloadSize := by
            simp only [payloadSize, pageSize, headerSize] at *
            omega
          simp only [totalPages, h1]
          exact Nat.add_div_right _ (by simp [payloadSize, pageSize, headerSize])
        have hdrop : (imageData.drop payloadSize).length = n - payloadSize := by
          simp [hn]
        have hih := ih (n - payloadSize)
          (by simp only [payloadSize, pageSize, headerSize] at *; omega)
          (imageData.drop payloadSize) hdrop
        rw [htp, List.range_succ_eq_map, List.map_cons, List.map_map, List.flatten_cons]
        have hshift : ∀ p : Nat, pageChunk imageData (p + 1) =
            pageChunk (imageData.drop payloadSize) p := by
          intro p
          simp only [pageChunk, List.drop_drop]
          have : (p + 1) * payloadSize = p * payloadSize + payloadSize := by ring
          rw [this, Nat.add_comm]
        have hmapeq : (List.range (totalPages (n - payloadSize))).map
            (pageChunk imageData ∘ Nat.succ) =
            (List.range (totalPages (n - payloadSize))).map
              (pageChunk (imageData.drop payloadSize)) := by
          refine List.map_congr_left ?_
          intro p _
          exact hshift p
        rw [hmapeq, hih]
        simp [pageChunk]

/-- Claim C5: `writeImageData` splits the image bytes into
`ceil(len/1016)` fixed 1024-byte reports whose concatenated payloads are
exactly the image bytes; report `p` (reports are written in ascending page
order `p = 0, 1, ...` under the device mutex) carries the header
`{0x02, 0x07, keyIndex, lastPageFlag, payload length LE16, page number
LE16}` followed by at most 1016 payload bytes, and the last-page flag is
set exactly on the final report. -/
theorem writeImageData_protocol (keyIndex : Nat) (imageData : List Nat)
    (hkey : keyIndex < 256) :
    (writeImageData keyIndex imageData).length = totalPages imageData.length ∧
    totalPages imageData.length = (imageData.length + 1015) / 1016 ∧
    (∀ r ∈ writeImageData keyIndex imageData, r.length = 1024) ∧
    ((List.range (totalPages imageData.length)).map (pageChunk imageData)).flatten =
      imageData ∧
    (∀ p : Nat, p < totalPages imageData.length →
      (pageChunk imageData p).length ≤ 1016 ∧
      (writeImageData keyIndex imageData)[p]? = some (buildReport keyIndex imageData p) ∧
      (buildReport keyIndex imageData p).take 8 =
        [0x02, 0x07, keyIndex,
         if p = totalPages imageData.length - 1 then 1 else 0,
         (pageChunk imageData p).length % 256, (pageChunk imageData p).length / 256 % 256,
         p % 256, p / 256 % 256] ∧
      ((buildReport keyIndex imageData p).drop 8).take (pageChunk imageData p).length =
        pageChunk imageData p) := by
  have hchunklen : ∀ p : Nat, (pageChunk imageData p).length ≤ 1016 := by
    intro p
    rw [pageChunk_length]
    simp only [payloadSize, pageSize, headerSize]
    omega
  refine ⟨by simp [writeImageData], ?_, ?_, chunks_join imageData, ?_⟩
  · simp [totalPages, payloadSize, pageSize, headerSize]
  · intro r hr
    obtain ⟨p, _, rfl⟩ := List.mem_map.mp hr
    have := hchunklen p
    simp only [buildReport, List.append_assoc, List.length_append, List.length_cons,
      List.length_replicate, List.length_nil]
    simp only [payloadSize, pageSize, headerSize] at *
    omega
  · intro p hp
    have hc := hchunklen p
    refine ⟨hc, ?_, ?_, ?_⟩
    · rw [writeImageData, List.getElem?_map, List.getElem?_range hp, Option.map_some']
    · have h1 : (buildReport keyIndex imageData p).take 8 =
          [0x02, 0x07, keyIndex % 256,
           if p = totalPages imageData.length - 1 then 0x01 else 0x00,
           (pageChunk imageData p).length % 256, (pageChunk imageData p).length / 256 % 256,
           p % 256, p / 256 % 256] := rfl
      rw [h1, Nat.mod_eq_of_lt hkey]
    · have h2 : (buildReport keyIndex imageData p).drop 8 =
          pageChunk imageData p ++
            List.replicate (payloadSize - (pageChunk imageData p).length) 0 := rfl
      rw [h2]
      exact List.take_left _ _

/-- Claim C5 witness: a 2100-byte image for key 3 is split into three
pages; the header and flag facts at page 2 (the final page). -/
theorem writeImageData_protocol_witness :
    (writeImageData 3 (List.replicate 2100 7)).length =
      totalPages (List.replicate 2100 7 : List Nat).length ∧
    totalPages (List.replicate 2100 7 : List Nat).length =
      ((List.replicate 2100 7 : List Nat).length + 1015) / 1016 ∧
    (∀ r ∈ writeImageData 3 (List.replicate 2100 7), r.length = 1024) ∧
    ((List.range (totalPages (List.replicate 2100 7 : List Nat).length)).map
      (pageChunk (List.replicate 2100 7))).flatten = List.replicate 2100 7 ∧
    (∀ p : Nat, p < totalPages (List.replicate 2100 7 : List Nat).length →
      (pageChunk (List.replicate 2100 7) p).length ≤ 1016 ∧
      (writeImageData 3 (List.replicate 2100 7))[p]? =
        some (buildReport 3 (List.replicate 2100 7) p) ∧
      (buildReport 3 (List.replicate 2100 7) p).take 8 =
        [0x02, 0x07, 3,
         if p = totalPages (List.replicate 2100 7 : List Nat).length - 1 then 1 else 0,
         (pageChunk (List.replicate 2100 7) p).length % 256,
         (pageChunk (List.replicate 2100 7) p).length / 256 % 256,
         p % 256, p / 256 % 256] ∧
      ((buildReport 3 (List.replicate 2100 7) p).drop 8).take
          (pageChunk (List.replicate 2100 7) p).length =
        pageChunk (List.replicate 2100 7) p) :=
  writeImageData_protocol 3 (List.replicate 2100 7) (by omega)

/-! ## Boot scan (manager.go `Boot`)

`Boot` runs `_boot.lua` synchronously when it exists, then walks the
config tree collecting every non-directory `.lua` file whose base name is
not exactly `_boot.lua`, loads each (failures are skipped) and starts the
background worker of each loaded script that defines `background`. -/

/-- `filepath.Base` over the characters of a Unix path: the part after the
final slash. -/
def baseNameChars (cs : List Char) : List Char :=
  (cs.reverse.takeWhile (fun c => c ≠ '/')).reverse

/-- `filepath.Base` as a `String` function (for the slashless, non-empty
paths the walk produces it is the final path element). -/
def baseName (s : String) : String :=
  String.mk (baseNameChars s.data)

/-- `filepath.Ext` over the characters: the suffix starting at the final
dot of the final path element, empty when that element has no dot. -/
def extChars (cs : List Char) : List Char :=
  let b := cs.reverse.takeWhile (fun c => c ≠ '/')
  if b.contains '.' then ('.' :: (b.takeWhile (fun c => c ≠ '.')).reverse).reverse.reverse
  else []

/-- `filepath.Ext` as a `String` function. -/
def extOf (s : String) : String :=
  String.mk (extChars s.data)

/-- One entry the `filepath.Walk` callback sees. -/
structure WalkEntry where
  path : String
  isDir : Bool
deriving DecidableEq, Repr

/-- The scan filter of `Boot` (manager.go): keep non-directories with
extension `.lua` whose base name is not `_boot.lua`. -/
def scanScripts (entries : List WalkEntry) : List String :=
  entries.filterMap fun e =>
    if e.isDir = true then none
    else if extOf e.path = ".lua" ∧ baseName e.path ≠ "_boot.lua" then some e.path
    else none

/-- Observable events of `Boot`, in program order. -/
inductive BootEvent where
  | runBootScript
  | load (path : String)
  | loadFailed (path : String)
  | startBackground (path : String)
deriving DecidableEq, Repr

/-- The inputs `Boot` consumes: the walked entries, whether
`<configDir>/_boot.lua` stats successfully, and per script whether
`NewScriptRunner` succeeds and whether the script defines `background`. -/
structure BootEnv where
  entries : List WalkEntry
  bootExists : Bool
  loadOk : String → Bool
  hasBg : String → Bool

/-- The event trace of `Boot` (manager.go): the synchronous boot script
first when present, then per scanned script a load (on success followed
immediately by the background start when the script defines one). -/
def bootTrace (e : BootEnv) : List BootEvent :=
  (if e.bootExists = true then [BootEvent.runBootScript] else []) ++
    (scanScripts e.entries).flatMap fun p =>
      if e.loadOk p = true then
        BootEvent.load p :: (if e.hasBg p = true then [BootEvent.startBackground p] else [])
      else [BootEvent.loadFailed p]

theorem mem_scanScripts (entries : List WalkEntry) (p : String) :
    p ∈ scanScripts entries ↔
      ∃ en : WalkEntry, en ∈ entries ∧ en.path = p ∧ en.isDir = false ∧
        extOf p = ".lua" ∧ baseName p ≠ "_boot.lua" := by
  simp only [scanScripts, List.mem_filterMap]
  constructor
  · rintro ⟨en, hen, hsome⟩
    by_cases hd : en.isDir = true
    · rw [if_pos hd] at hsome
      exact Option.noConfusion hsome
    · rw [if_neg hd] at hsome
      by_cases hc : extOf en.path = ".lua" ∧ baseName en.path ≠ "_boot.lua"
      · rw [if_pos hc] at hsome
        obtain rfl := Option.some_inj.mp hsome
        exact ⟨en, hen, rfl, by simpa using hd, hc.1, hc.2⟩
      · rw [if_neg hc] at hsome
        exact Option.noConfusion hsome
  · rintro ⟨en, hen, rfl, hdir, hext, hbase⟩
    refine ⟨en, hen, ?_⟩
    rw [if_neg (by simp [hdir]), if_pos ⟨hext, hbase⟩]

theorem load_mem_bootTrace (env : BootEnv) (p : String) :
    BootEvent.load p ∈ bootTrace env ↔
      p ∈ scanScripts env.entries ∧ env.loadOk p = true := by
  simp only [bootTrace, List.mem_append]
  constructor
  · rintro (h | h)
    · split at h <;> simp at h
    · obtain ⟨q, hq, hin⟩ := List.mem_flatMap.mp h
      by_cases hok : env.loadOk q = true
      · rw [if_pos hok] at hin
        rcases List.mem_cons.mp hin with hEq | hin
        · obtain rfl : p = q := by simpa using hEq
          exact ⟨hq, hok⟩
        · split at hin <;> simp at hin
      · rw [if_neg hok] at hin
        simp at hin
  · rintro ⟨hmem, hok⟩
    refine Or.inr (List.mem_flatMap.mpr ⟨p, hmem, ?_⟩)
    rw [if_pos hok]
    exact List.mem_cons_self _ _

theorem startBg_mem_bootTrace (env : BootEnv) (p : String) :
    BootEvent.startBackground p ∈ bootTrace env ↔
      p ∈ scanScripts env.entries ∧ env.loadOk p = true ∧ env.hasBg p = true := by
  simp only [bootTrace, List.mem_append]
  constructor
  · rintro (h | h)
    · split at h <;> simp at h
    · obtain ⟨q, hq, hin⟩ := List.mem_flatMap.mp h
      by_cases hok : env.loadOk q = true
      · rw [if_pos hok] at hin
        rcases List.mem_cons.mp hin with hEq | hin
        · exact absurd hEq (by simp)
        · by_cases hbg : env.hasBg q = true
          · rw [if_pos hbg] at hin
            obtain rfl : p = q := by
              simpa using List.mem_singleton.mp hin
            exact ⟨hq, hok, hbg⟩
          · rw [if_neg hbg] at hin
            simp at hin
      · rw [if_neg hok] at hin
        simp at hin
  · rintro ⟨hmem, hok, hbg⟩
    refine Or.inr (List.mem_flatMap.mpr ⟨p, hmem, ?_⟩)
    rw [if_pos hok, if_pos hbg]
    exact List.mem_cons_of_mem _ (List.mem_singleton.mpr rfl)

/-- Claim C6 counterexample: `cfg/_hidden.lua` has a base name starting
with an underscore, yet `Boot`'s scan keeps it and loads it as a script
runner — only the exact name `_boot.lua` is excluded. -/
theorem boot_scan_counterexample :
    scanScripts [⟨"cfg/_hidden.lua", false⟩] = ["cfg/_hidden.lua"] ∧
    baseName "cfg/_hidden.lua" = "_hidden.lua" ∧
    "_hidden.lua".data.head? = some '_' ∧
    BootEvent.load "cfg/_hidden.lua" ∈
      bootTrace ⟨[⟨"cfg/_hidden.lua", false⟩], false, fun _ => true, fun _ => false⟩ := by
  refine ⟨?_, ?_, ?_, ?_⟩
  · rfl
  · rfl
  · rfl
  · rw [load_mem_bootTrace]
    constructor
    · rw [mem_scanScripts]
      exact ⟨⟨"cfg/_hidden.lua", false⟩, by simp, rfl, rfl, by rfl, by decide⟩
    · rfl

/-- Claim C6 (amended): `Boot` enumerates `.lua` files recursively, but
only the exact base name `_boot.lua` is excluded from loading — other
underscore-prefixed `.lua` files are loaded as script runners too. The
optional `_boot.lua` runs synchronously first when present, and the
background worker is started exactly for the loaded scripts that define
`background`. -/
theorem boot_scan (env : BootEnv) (hload : ∀ q : String, env.loadOk q = true) :
    (∀ p : String, BootEvent.load p ∈ bootTrace env ↔
      (∃ en : WalkEntry, en ∈ env.entries ∧ en.path = p ∧ en.isDir = false ∧
        extOf p = ".lua" ∧ baseName p ≠ "_boot.lua")) ∧
    (env.bootExists = true → (bootTrace env)[0]? = some BootEvent.runBootScript) ∧
    (env.bootExists = false → BootEvent.runBootScript ∉ bootTrace env) ∧
    (∀ p : String, BootEvent.startBackground p ∈ bootTrace env ↔
      BootEvent.load p ∈ bootTrace env ∧ env.hasBg p = true) := by
  refine ⟨?_, ?_, ?_, ?_⟩
  · intro p
    rw [load_mem_bootTrace, mem_scanScripts]
    simp [hload p]
  · intro hb
    simp [bootTrace, hb]
  · intro hb h
    simp only [bootTrace, List.mem_append, hb] at h
    rcases h with h | h
    · simp at h
    · obtain ⟨q, _, hin⟩ := List.mem_flatMap.mp h
      split at hin
      · rcases List.mem_cons.mp hin with hEq | hin
        · exact BootEvent.noConfusion hEq
        · split at hin <;> simp at hin
      · simp at hin
  · intro p
    rw [startBg_mem_bootTrace, load_mem_bootTrace]
    tauto

/-- Claim C6 witness: two scripts, one with `background`, and `_boot.lua`
present. -/
theorem boot_scan_witness :
    (∀ p : String,
      BootEvent.load p ∈
        bootTrace ⟨[⟨"cfg/a.lua", false⟩, ⟨"cfg/sub", true⟩, ⟨"cfg/sub/b.lua", false⟩],
          true, fun _ => true, fun q => q = "cfg/sub/b.lua"⟩ ↔
      (∃ en : WalkEntry,
        en ∈ [(⟨"cfg/a.lua", false⟩ : WalkEntry), ⟨"cfg/sub", true⟩, ⟨"cfg/sub/b.lua", false⟩] ∧
        en.path = p ∧ en.isDir = false ∧ extOf p = ".lua" ∧ baseName p ≠ "_boot.lua")) ∧
    ((true : Bool) = true →
      (bootTrace ⟨[⟨"cfg/a.lua", false⟩, ⟨"cfg/sub", true⟩, ⟨"cfg/sub/b.lua", false⟩],
        true, fun _ => true, fun q => q = "cfg/sub/b.lua"⟩)[0]? =
        some BootEvent.runBootScript) ∧
    ((true : Bool) = false →
      BootEvent.runBootScript ∉
        bootTrace ⟨[⟨"cfg/a.lua", false⟩, ⟨"cfg/sub", true⟩, ⟨"cfg/sub/b.lua", false⟩],
          true, fun _ => true, fun q => q = "cfg/sub/b.lua"⟩) ∧
    (∀ p : String,
      BootEvent.startBackground p ∈
        bootTrace ⟨[⟨"cfg/a.lua", false⟩, ⟨"cfg/sub", true⟩, ⟨"cfg/sub/b.lua", false⟩],
          true, fun _ => true, fun q => q = "cfg/sub/b.lua"⟩ ↔
      BootEvent.load p ∈
        bootTrace ⟨[⟨"cfg/a.lua", false⟩, ⟨"cfg/sub", true⟩, ⟨"cfg/sub/b.lua", false⟩],
          true, fun _ => true, fun q => q = "cfg/sub/b.lua"⟩ ∧
      (decide (p = "cfg/sub/b.lua")) = true) :=
  boot_scan
    ⟨[⟨"cfg/a.lua", false⟩, ⟨"cfg/sub", true⟩, ⟨"cfg/sub/b.lua", false⟩],
      true, fun _ => true, fun q => q = "cfg/sub/b.lua"⟩
    (fun _ => rfl)

/-! ## Script load shapes (script host definitional pass)

`manager.go`'s `runBootAnimation` reads `runner.module`, the module table
stored by the current `NewScriptRunner`; that revision of runner.go is not
among the sources, so the load-time shape detection is modelled from the
spec. -/

/-- Which of the three callbacks a shape defines. -/
structure CallbackFlags where
  background : Bool
  passive : Bool
  trigger : Bool
deriving DecidableEq, Repr

/-- What the definitional pass of a script leaves behind: the value the
script returned (a module table with optional `background`/`passive`/
`trigger` entries, or nothing), and the same-named globals it defined. -/
structure ScriptShape where
  returnedModule : Option CallbackFlags
  globals : CallbackFlags
deriving DecidableEq, Repr

/-- Modelled from the spec: the shape detection of the current
`NewScriptRunner` (the runner.go revision with the `module` field that
`manager.go` reads is missing from the sources). Per the spec the script
"either returns a module table `{background?, passive?, trigger?}` or
leaves same-named globals defined; both shapes are accepted": when a
module table is returned its entries are used, otherwise the globals. -/
def detectCallbacks (s : ScriptShape) : CallbackFlags :=
  match s.returnedModule with
  | some m => m
  | none => s.globals

/-- Claim C7: a script returning a module table and a script leaving
same-named globals are both accepted — either shape yields the same
detected callback set, and the detected `passive` flag is exactly what
lets the scheduler invoke `passive` (a `RunPassive` with the lock free and
a table result produces an appearance iff the flag is set). -/
theorem script_shapes_accepted (flags : CallbackFlags) :
    detectCallbacks ⟨some flags, ⟨false, false, false⟩⟩ = flags ∧
    detectCallbacks ⟨none, flags⟩ = flags ∧
    (∀ t : AppearanceTable, flags.passive = true →
      (runPassive ⟨"/cfg/s.lua", (detectCallbacks ⟨some flags, ⟨false, false, false⟩⟩).passive,
        true, .table t⟩ 0).1 = some (parseAppearance "/cfg/s.lua" t)) ∧
    (∀ t : AppearanceTable, flags.passive = true →
      (runPassive ⟨"/cfg/s.lua", (detectCallbacks ⟨none, flags⟩).passive,
        true, .table t⟩ 0).1 = some (parseAppearance "/cfg/s.lua" t)) := by
  refine ⟨rfl, rfl, ?_, ?_⟩
  · intro t hp
    simp [runPassive, detectCallbacks, hp]
  · intro t hp
    simp [runPassive, detectCallbacks, hp]

/-- Claim C7 witness: a script defining all three callbacks, in both
shapes, with a concrete passive table. -/
theorem script_shapes_accepted_witness :
    detectCallbacks ⟨some ⟨true, true, true⟩, ⟨false, false, false⟩⟩ = ⟨true, true, true⟩ ∧
    detectCallbacks ⟨none, ⟨true, true, true⟩⟩ = ⟨true, true, true⟩ ∧
    (runPassive ⟨"/cfg/s.lua",
        (detectCallbacks ⟨some ⟨true, true, true⟩, ⟨false, false, false⟩⟩).passive,
        true, .table ⟨some (1, 2, 3), none, none, none⟩⟩ 0).1 =
      some (parseAppearance "/cfg/s.lua" ⟨some (1, 2, 3), none, none, none⟩) ∧
    (runPassive ⟨"/cfg/s.lua", (detectCallbacks ⟨none, ⟨true, true, true⟩⟩).passive,
        true, .table ⟨some (1, 2, 3), none, none, none⟩⟩ 0).1 =
      some (parseAppearance "/cfg/s.lua" ⟨some (1, 2, 3), none, none, none⟩) :=
  ⟨(script_shapes_accepted ⟨true, true, true⟩).1,
   (script_shapes_accepted ⟨true, true, true⟩).2.1,
   (script_shapes_accepted ⟨true, true, true⟩).2.2.1 ⟨some (1, 2, 3), none, none, none⟩ rfl,
   (script_shapes_accepted ⟨true, true, true⟩).2.2.2 ⟨some (1, 2, 3), none, none, none⟩ rfl⟩

/-! ## Key-update callback (apps/nomad-interface-streamdeck/main.go)

The application converts a batched passive appearance into a device
write. -/

/-- Go's `uint8(x)` conversion of an `int`: the low byte. -/
def toUint8 (x : Int) : Nat :=
  (x % 256).toNat

/-- An RGBA colour (alpha always 255 in the callback). -/
structure RGBA where
  r : Nat
  g : Nat
  b : Nat
  a : Nat
deriving DecidableEq, Repr

/-- The write the callback performs on a key: a
`CreateTextImageWithColors` rendering, a `SetKeyColor` solid colour, or —
what the claim expects for a resolving image — the image itself, which
the code never produces (`KeyAppearance.Image` is commented "future"). -/
inductive AppliedWrite where
  | textImage (text : String) (bg : RGBA) (textColor : RGBA)
  | solidColor (c : RGBA)
  | imageFile (src : String)
deriving DecidableEq, Repr

/-- The callback main.go installs with `SetKeyUpdateCallback`: nil
appearances are dropped; non-empty `Text` yields the text-on-colour
image; otherwise the solid colour. The `Image` field is never read. -/
def keyUpdateCallback (keyIndex : Nat) (a : Option KeyAppearance) :
    Option (Nat × AppliedWrite) :=
  match a with
  | none => none
  | some ap =>
    let c : RGBA := ⟨toUint8 ap.color.1, toUint8 ap.color.2.1, toUint8 ap.color.2.2, 255⟩
    if ap.text ≠ "" then
      some (keyIndex, .textImage ap.text c
        ⟨toUint8 ap.textColor.1, toUint8 ap.textColor.2.1, toUint8 ap.textColor.2.2, 255⟩)
    else
      some (keyIndex, .solidColor c)

/-- Claim C8 counterexample: a passive table whose `image` resolves (to
`/cfg/app/icon.png`) together with colour and text; the callback writes
the text-on-colour image for that frame, not the image. -/
theorem keyUpdate_image_counterexample :
    (parseAppearance "/cfg/app/s.lua"
      ⟨some (10, 20, 30), some "hi", none, some "icon.png"⟩).image = "/cfg/app/icon.png" ∧
    keyUpdateCallback 4 (some (parseAppearance "/cfg/app/s.lua"
        ⟨some (10, 20, 30), some "hi", none, some "icon.png"⟩)) =
      some (4, .textImage "hi" ⟨10, 20, 30, 255⟩ ⟨255, 255, 255, 255⟩) ∧
    some (4, AppliedWrite.textImage "hi" ⟨10, 20, 30, 255⟩ ⟨255, 255, 255, 255⟩) ≠
      some (4, AppliedWrite.imageFile "/cfg/app/icon.png") := by
  refine ⟨?_, ?_, by decide⟩
  · rfl
  · rfl

/-- Claim C8 (amended): `RunPassive` resolves the `image` field into the
appearance, but the application's key-update callback ignores it — the
write is the text-on-colour image when `text` is non-empty and the solid
colour otherwise, is unchanged under any value of the image field, and an
image write is never produced. -/
theorem keyUpdate_image_ignored (k : Nat) (ap : KeyAppearance) :
    (∀ src : String, keyUpdateCallback k (some { ap with image := src }) =
      keyUpdateCallback k (some ap)) ∧
    (ap.text ≠ "" → keyUpdateCallback k (some ap) =
      some (k, .textImage ap.text
        ⟨toUint8 ap.color.1, toUint8 ap.color.2.1, toUint8 ap.color.2.2, 255⟩
        ⟨toUint8 ap.textColor.1, toUint8 ap.textColor.2.1, toUint8 ap.textColor.2.2, 255⟩)) ∧
    (ap.text = "" → keyUpdateCallback k (some ap) =
      some (k, .solidColor ⟨toUint8 ap.color.1, toUint8 ap.color.2.1, toUint8 ap.color.2.2, 255⟩)) ∧
    (∀ w : Nat × AppliedWrite, keyUpdateCallback k (some ap) = some w →
      ∀ src : String, w.2 ≠ .imageFile src) := by
  refine ⟨fun src => rfl, ?_, ?_, ?_⟩
  · intro h
    simp [keyUpdateCallback, h]
  · intro h
    simp [keyUpdateCallback, h]
  · intro w hw src
    by_cases h : ap.text = ""
    · simp [keyUpdateCallback, h] at hw
      rw [← hw]
      simp
    · simp [keyUpdateCallback, h] at hw
      rw [← hw]
      simp

/-- Claim C8 witness: the amended statement at the counterexample's
appearance. -/
theorem keyUpdate_image_ignored_witness :
    keyUpdateCallback 4 (some ⟨(10, 20, 30), "hi", (255, 255, 255), "/cfg/app/icon.png"⟩) =
      some (4, .textImage "hi"
        ⟨toUint8 10, toUint8 20, toUint8 30, 255⟩
        ⟨toUint8 255, toUint8 255, toUint8 255, 255⟩) :=
  (keyUpdate_image_ignored 4
    ⟨(10, 20, 30), "hi", (255, 255, 255), "/cfg/app/icon.png"⟩).2.1 (by decide)

/-! ## Image cache eviction (images.go `ImageCache.Set`, LRU revision)

The cache maps a source key to `{image, accessed, size}`; `Set` estimates
the image as `w*h*4` bytes and evicts oldest-first while the total plus
the new size exceeds `maxSize` MB. The map is modelled as a list of
entries with unique keys (insertion replaces); `accessed` is a logical
timestamp. The Go loop subtracts `c.images[oldestKey].size` AFTER
`delete(c.images, oldestKey)`, so it subtracts the zero value — the model
reproduces that order faithfully. -/

/-- One cache entry (images.go `cacheEntry`, with its map key). -/
structure CacheEntry where
  key : String
  size : Nat
  accessed : Nat
deriving DecidableEq, Repr

/-- The `totalSize` scan of `Set`. -/
def totalSizeOf (es : List CacheEntry) : Nat :=
  (es.map (fun e => e.size)).sum

/-- The oldest-entry scan (`oldestKey == "" || e.accessed.Before(...)`):
first entry in iteration order among those with the strictly smallest
access time. -/
def findOldest (es : List CacheEntry) : Option String :=
  (es.foldl
    (fun acc e =>
      match acc with
      | none => some (e.key, e.accessed)
      | some (k, t) => if e.accessed < t then some (e.key, e.accessed) else some (k, t))
    none).map Prod.fst

/-- `delete(c.images, k)`. -/
def removeKey (es : List CacheEntry) (k : String) : List CacheEntry :=
  es.filter fun e => e.key ≠ k

/-- `c.images[k].size` — the Go map read, returning the zero value when
the key is absent. -/
def sizeOfKey (es : List CacheEntry) (k : String) : Nat :=
  match es.find? (fun e => e.key = k) with
  | some e => e.size
  | none => 0

/-- The eviction loop of `Set`, fuelled (each productive iteration
removes one entry, so `length + 1` fuel is exact). Faithful to the code:
the size of the evicted key is read only after the delete, so the
subtraction is always by zero. -/
def evictLoop : Nat → List CacheEntry → Nat → Nat → Nat → List CacheEntry
  | 0, es, _, _, _ => es
  | fuel + 1, es, totalSize, newSize, budget =>
    if totalSize + newSize > budget then
      if es.isEmpty then es
      else
        match findOldest es with
        | some k => evictLoop fuel (removeKey es k) (totalSize - sizeOfKey (removeKey es k) k)
            newSize budget
        | none => es
    else es

/-- `ImageCache.Set` (images.go, LRU revision): estimate `w*h*4` bytes,
evict while over the `maxSize` MB budget, then store the entry (replacing
the key if present). -/
def cacheSet (es : List CacheEntry) (key : String) (w h : Nat) (now : Nat)
    (maxSize : Nat) : List CacheEntry :=
  let size := w * h * 4
  let budget := maxSize * 1024 * 1024
  let es' := evictLoop (es.length + 1) es (totalSizeOf es) size budget
  removeKey es' key ++ [⟨key, size, now⟩]

/-- Claim C10 (code bug): with a 1 MB budget, entries A (600000 bytes,
accessed at 1) and B (300000 bytes, accessed at 2), adding a 250x300
image C (300000 bytes) should per the claim evict only A — after A is
gone, B plus C (600000 bytes) fits the budget — but the code evicts B as
well: `totalSize -= c.images[oldestKey].size` runs after
`delete(c.images, oldestKey)` and subtracts zero, so the loop drains the
whole cache. -/
theorem cacheSet_over_eviction :
    cacheSet [⟨"a", 600000, 1⟩, ⟨"b", 300000, 2⟩] "c" 250 300 3 1 =
      [⟨"c", 300000, 3⟩] ∧
    totalSizeOf [(⟨"b", 300000, 2⟩ : CacheEntry)] + 250 * 300 * 4 ≤ 1 * 1024 * 1024 ∧
    (⟨"b", 300000, 2⟩ : CacheEntry) ∉
      cacheSet [⟨"a", 600000, 1⟩, ⟨"b", 300000, 2⟩] "c" 250 300 3 1 := by
  refine ⟨by decide, by decide, by decide⟩

/-! ## JSON value conversion (modules/json.go)

`json.encode` converts the Lua value to a Go value (`luaValueToGo`) and
marshals it; `json.decode` unmarshals into Go values and converts back
(`goValueToLua`). The Go values both functions traffic in are exactly
`nil`/`bool`/`float64`/`string`/`[]interface{}`/`map[string]interface{}`,
on which `encoding/json`'s Marshal-then-Unmarshal is the identity, so the
round trip reduces to `goValueToLua ∘ luaValueToGo`. Numbers are carried
opaquely (every function involved passes them through unchanged), so they
are modelled as integers; tables are modelled as entry lists (iteration
order), with keys non-nil as in Lua. -/

/-- A Lua table key. -/
inductive LuaKey where
  | num (n : Int)
  | str (s : String)
deriving DecidableEq, Repr

/-- A Lua value as json.go inspects it. -/
inductive LuaVal where
  | lnil
  | lbool (b : Bool)
  | lnum (n : Int)
  | lstr (s : String)
  | ltable (entries : List (LuaKey × LuaVal))
deriving Repr

/-- A Go value as produced by `luaValueToGo` and by `json.Unmarshal`. -/
inductive GoVal where
  | gnil
  | gbool (b : Bool)
  | gnum (n : Int)
  | gstr (s : String)
  | garr (xs : List GoVal)
  | gobj (fields : List (String × GoVal))
deriving Repr

/-- One step of `luaValueToGo`'s `maxKey` scan: numeric keys raise the
maximum, string keys are skipped. -/
def maxKeyStep (m : Int) (e : LuaKey × GoVal) : Int :=
  match e.1 with
  | .num n => if n > m then n else m
  | .str _ => m

/-- The `maxKey` scan of `luaValueToGo`: the largest (integer) numeric key
seen, starting from 0. -/
def tableMaxKey (ges : List (LuaKey × GoVal)) : Int :=
  ges.foldl maxKeyStep 0

/-- The `isArray` scan of `luaValueToGo`: every key is a number. -/
def tableIsArray (ges : List (LuaKey × GoVal)) : Bool :=
  ges.all fun e =>
    match e.1 with
    | .num _ => true
    | .str _ => false

/-- `v.RawGetInt(i)` after the per-value conversion: the value under the
numeric key `i`, or nil (converted: `gnil`) when absent. -/
def goRawGetInt (ges : List (LuaKey × GoVal)) (i : Int) : GoVal :=
  match ges.find? (fun e => e.1 = LuaKey.num i) with
  | some e => e.2
  | none => .gnil

/-- The table branch of `luaValueToGo` (json.go): a table whose keys are
all numbers with positive `maxKey` becomes the array
`[RawGetInt 1, ..., RawGetInt maxKey]`; any other table becomes the
object of its string-keyed entries. -/
def tableToGo (ges : List (LuaKey × GoVal)) : GoVal :=
  if tableIsArray ges = true ∧ tableMaxKey ges > 0 then
    .garr ((List.range (tableMaxKey ges).toNat).map fun i : Nat => goRawGetInt ges ((i : Int) + 1))
  else
    .gobj (ges.filterMap fun e =>
      match e.1 with
      | .str s => some (s, e.2)
      | .num _ => none)

/-- `luaValueToGo` (json.go): nil, booleans, numbers and strings pass
through; tables convert their values recursively and then take the
array/object branch. -/
def luaValueToGo : LuaVal → GoVal
  | .lnil => .gnil
  | .lbool b => .gbool b
  | .lnum n => .gnum n
  | .lstr s => .gstr s
  | .ltable es => tableToGo (es.attach.map fun p => (p.1.1, luaValueToGo p.1.2))
decreasing_by
  have h1 := List.sizeOf_lt_of_mem p.2
  obtain ⟨⟨k, v⟩, hmem⟩ := p
  simp at h1 ⊢
  omega

/-- `tbl.RawSetInt(i+1, ...)` for the elements of a decoded array, in
order (json.go `goValueToLua`, `[]interface{}` branch). -/
def numberFrom (i : Int) : List LuaVal → List (LuaKey × LuaVal)
  | [] => []
  | v :: vs => (LuaKey.num i, v) :: numberFrom (i + 1) vs

/-- `goValueToLua` (json.go): arrays become tables keyed `1..n` in order,
objects become string-keyed tables in iteration order. -/
def goValueToLua : GoVal → LuaVal
  | .gnil => .lnil
  | .gbool b => .lbool b
  | .gnum n => .lnum n
  | .gstr s => .lstr s
  | .garr xs => .ltable (numberFrom 1 (xs.attach.map fun p => goValueToLua p.1))
  | .gobj fs => .ltable (fs.attach.map fun p => (LuaKey.str p.1.1, goValueToLua p.1.2))
decreasing_by
  · have h1 := List.sizeOf_lt_of_mem p.2
    obtain ⟨v, hmem⟩ := p
    simp at h1 ⊢
    omega
  · have h1 := List.sizeOf_lt_of_mem p.2
    obtain ⟨⟨k, v⟩, hmem⟩ := p
    simp at h1 ⊢
    omega

/-- The keys are exactly `num i, num (i+1), ...` in order (the contiguous
1-based integer keys of the claim, when started at 1). -/
def keysAreArray : Int → List LuaKey → Bool
  | _, [] => true
  | i, k :: ks => (k = LuaKey.num i : Bool) && keysAreArray (i + 1) ks

/-- Every key is a string. -/
def keysAreStrings (ks : List LuaKey) : Bool :=
  ks.all fun k =>
    match k with
    | .str _ => true
    | .num _ => false

/-- No key occurs twice. -/
def keysNodupChk : List LuaKey → Bool
  | [] => true
  | k :: ks => (ks.all fun k2 => !(k2 = k : Bool)) && keysNodupChk ks

/-- The domain of the round-trip claim: values composed of nulls,
booleans, numbers, strings, arrays (contiguous 1-based integer keys,
non-nil elements — a nil element would not exist in a Lua table) and
string-keyed objects (non-nil values, distinct keys). -/
inductive InDomain : LuaVal → Prop where
  | nil : InDomain .lnil
  | bool (b : Bool) : InDomain (.lbool b)
  | num (n : Int) : InDomain (.lnum n)
  | str (s : String) : InDomain (.lstr s)
  | arr (es : List (LuaKey × LuaVal))
      (hkeys : keysAreArray 1 (es.map Prod.fst) = true)
      (hnn : ∀ e ∈ es, e.2 ≠ .lnil)
      (hvals : ∀ e ∈ es, InDomain e.2) : InDomain (.ltable es)
  | obj (es : List (LuaKey × LuaVal))
      (hkeys : keysAreStrings (es.map Prod.fst) = true)
      (hnd : keysNodupChk (es.map Prod.fst) = true)
      (hnn : ∀ e ∈ es, e.2 ≠ .lnil)
      (hvals : ∀ e ∈ es, InDomain e.2) : InDomain (.ltable es)

theorem luaValueToGo_ltable (es : List (LuaKey × LuaVal)) :
    luaValueToGo (.ltable es) = tableToGo (es.map fun e => (e.1, luaValueToGo e.2)) := by
  rw [luaValueToGo]
  congr 1
  exact List.attach_map_val es fun e => (e.1, luaValueToGo e.2)

theorem goValueToLua_garr (xs : List GoVal) :
    goValueToLua (.garr xs) = .ltable (numberFrom 1 (xs.map goValueToLua)) := by
  rw [goValueToLua]
  exact congrArg (fun l => LuaVal.ltable (numberFrom 1 l)) (List.attach_map_val xs goValueToLua)

theorem goValueToLua_gobj (fs : List (String × GoVal)) :
    goValueToLua (.gobj fs) = .ltable (fs.map fun f => (LuaKey.str f.1, goValueToLua f.2)) := by
  rw [goValueToLua]
  exact congrArg LuaVal.ltable
    (List.attach_map_val fs fun f => (LuaKey.str f.1, goValueToLua f.2))

theorem keysAreArray_cons (i : Int) (k : LuaKey) (ks : List LuaKey) :
    keysAreArray i (k :: ks) = true ↔ k = LuaKey.num i ∧ keysAreArray (i + 1) ks = true := by
  simp [keysAreArray]

theorem foldl_maxKeyStep (ges : List (LuaKey × GoVal)) (i m : Int)
    (h : keysAreArray i (ges.map Prod.fst) = true) (him : m < i) :
    ges.foldl maxKeyStep m = if ges.length = 0 then m else i + ges.length - 1 := by
  induction ges generalizing i m with
  | nil => simp
  | cons e rest ih =>
    obtain ⟨hk, hrest⟩ := (keysAreArray_cons ..).mp (by simpa using h)
    rw [List.foldl_cons]
    have hstep : maxKeyStep m e = i := by
      simp only [maxKeyStep, hk]
      rw [if_pos him]
    rw [hstep, ih (i + 1) i hrest (by omega)]
    rcases rest with _ | ⟨e2, rest2⟩
    · simp
    · simp only [List.length_cons, if_neg (by omega : ¬ (rest2.length + 1 = 0)),
        if_neg (by omega : ¬ (rest2.length + 1 + 1 = 0))]
      push_cast
      ring

theorem tableIsArray_of_keysAreArray (ges : List (LuaKey × GoVal)) (i : Int)
    (h : keysAreArray i (ges.map Prod.fst) = true) : tableIsArray ges = true := by
  induction ges generalizing i with
  | nil => rfl
  | cons e rest ih =>
    obtain ⟨hk, hrest⟩ := (keysAreArray_cons ..).mp (by simpa using h)
    have h2 := ih (i + 1) hrest
    rw [tableIsArray] at h2 ⊢
    rw [List.all_cons, hk]
    simp [h2]

theorem maxKeyStep_of_str (m : Int) (e : LuaKey × GoVal) (s : String) (h : e.1 = .str s) :
    maxKeyStep m e = m := by
  simp only [maxKeyStep, h]

theorem tableMaxKey_of_strings (ges : List (LuaKey × GoVal))
    (h : keysAreStrings (ges.map Prod.fst) = true) : tableMaxKey ges = 0 := by
  have haux : ∀ (l : List (LuaKey × GoVal)) (m : Int),
      keysAreStrings (l.map Prod.fst) = true → l.foldl maxKeyStep m = m := by
    intro l
    induction l with
    | nil => intro m _; rfl
    | cons e rest ih =>
      intro m hl
      simp only [List.map_cons, keysAreStrings, List.all_cons, Bool.and_eq_true] at hl
      obtain ⟨hk, hrest⟩ := hl
      rw [List.foldl_cons]
      rcases he : e.1 with n | s
      · rw [he] at hk
        simp at hk
      · rw [maxKeyStep_of_str m e s he]
        exact ih m (by simpa [keysAreStrings] using hrest)
  exact haux ges 0 h

theorem rawGet_range (ges : List (LuaKey × GoVal)) (i : Int)
    (h : keysAreArray i (ges.map Prod.fst) = true) :
    (List.range ges.length).map (fun j : Nat => goRawGetInt ges (i + (j : Int))) =
      ges.map Prod.snd := by
  induction ges generalizing i with
  | nil => simp
  | cons e rest ih =>
    obtain ⟨hk, hrest⟩ := (keysAreArray_cons ..).mp (by simpa using h)
    rw [List.length_cons, List.range_succ_eq_map, List.map_cons, List.map_map, List.map_cons]
    congr 1
    · show goRawGetInt (e :: rest) (i + ((0 : Nat) : Int)) = e.2
      have h0 : i + ((0 : Nat) : Int) = i := by push_cast; ring
      rw [h0, goRawGetInt, List.find?_cons_of_pos _ (by simp [hk])]
    · rw [← ih (i + 1) hrest]
      refine List.map_congr_left ?_
      intro j _
      show goRawGetInt (e :: rest) (i + ((j + 1 : Nat) : Int)) =
        goRawGetInt rest (i + 1 + (j : Int))
      have hkne : ¬ (e.1 = LuaKey.num (i + ((j + 1 : Nat) : Int))) := by
        rw [hk]
        intro hEq
        have h2 : i = i + ((j + 1 : Nat) : Int) := by simpa using hEq
        push_cast at h2
        omega
      rw [goRawGetInt, List.find?_cons_of_neg _ (by simpa using hkne), ← goRawGetInt]
      have hc : i + ((j + 1 : Nat) : Int) = i + 1 + (j : Int) := by push_cast; ring
      rw [hc]

theorem numberFrom_map_snd (es : List (LuaKey × LuaVal)) (i : Int)
    (h : keysAreArray i (es.map Prod.fst) = true) :
    numberFrom i (es.map Prod.snd) = es := by
  induction es generalizing i with
  | nil => rfl
  | cons e rest ih =>
    obtain ⟨hk, hrest⟩ := (keysAreArray_cons ..).mp (by simpa using h)
    rw [List.map_cons, numberFrom, ih (i + 1) hrest]
    congr 1
    rw [← hk]

theorem obj_roundtrip_list (es : List (LuaKey × LuaVal))
    (h : keysAreStrings (es.map Prod.fst) = true)
    (hIH : ∀ e ∈ es, goValueToLua (luaValueToGo e.2) = e.2) :
    (((es.map fun e => (e.1, luaValueToGo e.2)).filterMap fun e =>
        match e.1 with
        | .str s => some (s, e.2)
        | .num _ => none).map
      fun f => (LuaKey.str f.1, goValueToLua f.2)) = es := by
  induction es with
  | nil => rfl
  | cons e rest ih =>
    simp only [List.map_cons, keysAreStrings, List.all_cons, Bool.and_eq_true] at h
    obtain ⟨hk, hrest⟩ := h
    rcases he : e.1 with n | s
    · rw [he] at hk
      simp at hk
    · rw [List.map_cons, List.filterMap_cons]
      simp only [he]
      rw [List.map_cons]
      congr 1
      · rw [hIH e (by simp), ← he]
      · exact ih (by simpa [keysAreStrings] using hrest)
          fun e2 he2 => hIH e2 (by simp [he2])

/-- Claim C9: for every value in the claim's domain (nulls, booleans,
numbers, strings, arrays with contiguous 1-based integer keys, and
string-keyed objects), `json.decode(json.encode(x)) = x`: the Lua-to-Go
conversion followed by the Go-to-Lua conversion is the identity (the
marshalling in between is the identity on the Go value domain both
functions use). -/
theorem json_roundtrip (x : LuaVal) (h : InDomain x) :
    goValueToLua (luaValueToGo x) = x := by
  induction h with
  | nil => simp [luaValueToGo, goValueToLua]
  | bool b => simp [luaValueToGo, goValueToLua]
  | num n => simp [luaValueToGo, goValueToLua]
  | str s => simp [luaValueToGo, goValueToLua]
  | arr es hkeys hnn hvals ih =>
    rw [luaValueToGo_ltable]
    have hkeysplain : (es.map fun e => (e.1, luaValueToGo e.2)).map Prod.fst =
        es.map Prod.fst := by
      rw [List.map_map]
      rfl
    by_cases hesne : es = []
    · subst hesne
      rw [show (([] : List (LuaKey × LuaVal)).map fun e => (e.1, luaValueToGo e.2)) = []
        from rfl]
      rw [show tableToGo [] = GoVal.gobj [] from rfl, goValueToLua_gobj]
      rfl
    · have harr2 : keysAreArray 1 ((es.map fun e => (e.1, luaValueToGo e.2)).map Prod.fst) =
          true := by rw [hkeysplain]; exact hkeys
      have hisarr : tableIsArray (es.map fun e => (e.1, luaValueToGo e.2)) = true :=
        tableIsArray_of_keysAreArray _ 1 harr2
      have hlen : (es.map fun e => (e.1, luaValueToGo e.2)).length = es.length :=
        List.length_map ..
      have hlennz : ¬ (es.length = 0) := fun hc => hesne (List.length_eq_zero.mp hc)
      have hmax : tableMaxKey (es.map fun e => (e.1, luaValueToGo e.2)) =
          (es.length : Int) := by
        rw [tableMaxKey, foldl_maxKeyStep _ 1 0 harr2 (by omega), hlen, if_neg hlennz]
        ring
      have hlenpos : 0 < es.length := Nat.pos_of_ne_zero hlennz
      rw [tableToGo, if_pos ⟨hisarr, by rw [hmax]; exact_mod_cast hlenpos⟩]
      rw [hmax, Int.toNat_natCast]
      have hrange : (List.range es.length).map
          (fun i : Nat => goRawGetInt (es.map fun e => (e.1, luaValueToGo e.2)) ((i : Int) + 1)) =
          (es.map fun e => (e.1, luaValueToGo e.2)).map Prod.snd := by
        have hr := rawGet_range (es.map fun e => (e.1, luaValueToGo e.2)) 1 harr2
        rw [hlen] at hr
        rw [← hr]
        refine List.map_congr_left ?_
        intro j _
        have hc : ((j : Int) + 1) = 1 + (j : Int) := by ring
        rw [hc]
      rw [hrange, goValueToLua_garr]
      refine congrArg LuaVal.ltable ?_
      rw [List.map_map, List.map_map]
      rw [show es.map ((goValueToLua ∘ Prod.snd) ∘ fun e : LuaKey × LuaVal =>
          (e.1, luaValueToGo e.2)) = es.map Prod.snd from
        List.map_congr_left fun e he => ih e he]
      exact numberFrom_map_snd es 1 hkeys
  | obj es hkeys hnd hnn hvals ih =>
    rw [luaValueToGo_ltable]
    have hkeysplain : (es.map fun e => (e.1, luaValueToGo e.2)).map Prod.fst =
        es.map Prod.fst := by
      rw [List.map_map]
      rfl
    have hstr2 : keysAreStrings ((es.map fun e => (e.1, luaValueToGo e.2)).map Prod.fst) =
        true := by rw [hkeysplain]; exact hkeys
    have hmax0 : tableMaxKey (es.map fun e => (e.1, luaValueToGo e.2)) = 0 :=
      tableMaxKey_of_strings _ hstr2
    rw [tableToGo, if_neg (by intro hc; rw [hmax0] at hc; exact absurd hc.2 (by omega))]
    rw [goValueToLua_gobj]
    exact congrArg LuaVal.ltable (obj_roundtrip_list es hkeys ih)

/-- Claim C9 witness: an object holding a number, a string and an array
of mixed values. -/
theorem json_roundtrip_witness :
    goValueToLua (luaValueToGo (.ltable
      [(.str "n", .lnum 42), (.str "s", .lstr "hi"),
       (.str "arr", .ltable [(.num 1, .lstr "x"), (.num 2, .lbool true), (.num 3, .lnum 7)])])) =
      .ltable
        [(.str "n", .lnum 42), (.str "s", .lstr "hi"),
         (.str "arr", .ltable [(.num 1, .lstr "x"), (.num 2, .lbool true), (.num 3, .lnum 7)])] :=
  json_roundtrip _ (by
    refine InDomain.obj _ (by decide) (by decide) ?_ ?_
    · intro e he
      simp at he
      rcases he with ⟨rfl, rfl⟩ | ⟨rfl, rfl⟩ | ⟨rfl, rfl⟩ <;> simp
    · intro e he
      simp at he
      rcases he with ⟨rfl, rfl⟩ | ⟨rfl, rfl⟩ | ⟨rfl, rfl⟩
      · exact InDomain.num 42
      · exact InDomain.str "hi"
      · refine InDomain.arr _ (by decide) ?_ ?_
        · intro e2 he2
          simp at he2
          rcases he2 with ⟨rfl, rfl⟩ | ⟨rfl, rfl⟩ | ⟨rfl, rfl⟩ <;> simp
        · intro e2 he2
          simp at he2
          rcases he2 with ⟨rfl, rfl⟩ | ⟨rfl, rfl⟩ | ⟨rfl, rfl⟩
          · exact InDomain.str "x"
          · exact InDomain.bool true
          · exact InDomain.num 7)

end Nomad
